import Mathlib

/-!
Shallow embedding of the word-trie core of `src/vocab.py`:
`WordTrie._prefix_groups`, `WordTrie._search`, `WordTrie.__contains__`,
`strip_adjective`, `is_prefix` and `Word.normalize`.

Python strings are modelled as `List Char`.  Python dicts (which preserve
insertion order) are modelled as association lists where assignment
overwrites an existing binding in place and otherwise appends.
-/

/-- Python strings, as character lists. -/
abbrev Str := List Char

/-- A trie node: an insertion-ordered dict from string keys to child nodes
(the nested-dict value stored in `WordTrie._data`). -/
inductive Trie : Type where
  | node : List (Str × Trie) → Trie

/-- Dict lookup, i.e. `d[k]` (and `k in d` via `Option.isSome`). -/
def dlookup {α : Type} : List (Str × α) → Str → Option α
  | [], _ => none
  | (k, v) :: rest, key => if key = k then some v else dlookup rest key

/-- Dict assignment `d[k] = v`: overwrite an existing binding in place,
otherwise append a new one (Python dicts keep first-insertion order). -/
def dinsert {α : Type} : List (Str × α) → Str → α → List (Str × α)
  | [], key, v => [(key, v)]
  | (k, w) :: rest, key, v =>
    if key = k then (key, v) :: rest else (k, w) :: dinsert rest key v

/-- `is_prefix(s, other)` = `other.startswith(s)` (src/vocab.py:252). -/
def isPrefixFn (s other : Str) : Bool := s.isPrefixOf other

/-- The single-pass accumulation loop of `WordTrie._prefix_groups`
(src/vocab.py:120-140): walk the word list keeping the current candidate
prefix (`none` before the first word) and the member list accumulated for
it; on a word that does not start with the current prefix, flush the group
and restart from that word.  After the loop the pending group is flushed
only when the prefix is truthy (`if prefix:`), so an empty-string prefix
drops its accumulated members. -/
def scanGroups : List Str → Option Str → List Str → List (Str × List Str) → List (Str × List Str)
  | [], pfx, cur, gs =>
    match pfx with
    | none => gs
    | some p => if p = [] then gs else dinsert gs p cur
  | w :: ws, none, _cur, gs => scanGroups ws (some w) _cur gs
  | w :: ws, some p, cur, gs =>
    if isPrefixFn p w then scanGroups ws (some p) (cur ++ [w]) gs
    else scanGroups ws (some w) [] (dinsert gs p cur)

/-- `WordTrie._prefix_groups` (src/vocab.py:119-150): run the scan, then
recurse on every group's member list; a non-empty recursive grouping
replaces the member list, otherwise the members become leaf keys
(`{word: {} for word in new_words}`).  The recursion is realised with an
explicit depth bound (first argument); `scanGroups_value_length` shows a
group's member list is strictly shorter than the input, so the bound
`words.length` used by `wordTrieData` is never exhausted. -/
def prefixGroupsF : Nat → List Str → List (Str × Trie)
  | 0, _ => []
  | fuel + 1, words =>
    (scanGroups words none [] []).map (fun kv =>
      match prefixGroupsF fuel kv.2 with
      | [] => (kv.1, Trie.node (kv.2.foldl (fun d w => dinsert d w (Trie.node [])) []))
      | g => (kv.1, Trie.node g))

/-- `WordTrie.__init__`: `self._data = self._prefix_groups(words)`. -/
def wordTrieData (words : List Str) : List (Str × Trie) :=
  prefixGroupsF words.length words

mutual

/-- `WordTrie._search(word, i_start, data)` (src/vocab.py:91-117).  The
loop `for i in range(i_start, len(word) + 1)` is a fold over that index
range carrying the state `(prefixes, subtree, i_end)` (initially
`([], None, i_start)`); on a hit the recursion result for the child is
read off the memo table `searchTable` (which records `_search` of every
child at the same `i_start`, exactly as the code calls it). -/
def searchT (word : Str) (i0 : Nat) : Trie → List Str × Option Trie × Nat
  | Trie.node cs =>
    let tbl := searchTable word i0 cs
    let fin := (List.range' i0 (word.length + 1 - i0)).foldl
      (fun st i =>
        match dlookup tbl (word.take i) with
        | none => st
        | some (child, r) =>
          let ps := if word.take i = word then r.1 else r.1 ++ [word.take i]
          match r.2.1 with
          | some s => (ps, some s, r.2.2)
          | none => (ps, some child, i))
      ([], none, i0)
    if fin.2.2 < word.length then (fin.1, none, fin.2.2) else fin

/-- Memo table for `searchT`: each child key paired with the child and the
recursive `_search(word, i_start, child)` result. -/
def searchTable (word : Str) (i0 : Nat) : List (Str × Trie) → List (Str × (Trie × (List Str × Option Trie × Nat)))
  | [] => []
  | (k, t) :: rest => (k, (t, searchT word i0 t)) :: searchTable word i0 rest

end

/-- `WordTrie.search(word)` (src/vocab.py:87-89): run `_search` from offset
0 on `_data` and drop the end offset. -/
def wordTrieSearch (roots : List (Str × Trie)) (w : Str) : List Str × Option Trie :=
  let r := searchT w 0 (Trie.node roots)
  (r.1, r.2.1)

mutual

/-- `WordTrie._contains(word, i_start, data)` (src/vocab.py:157-166):
true when `word` is a direct key, or when some `word[:i]` with
`i_start <= i <= len(word)` is a key whose subtree contains `word`
starting from offset `i` (the offset scan continues from `i`, unlike
`_search` which restarts it).  The recursive calls at every start offset
are read off the memo table `containsTable`. -/
def containsT (word : Str) : Trie → Nat → Bool
  | Trie.node cs => fun i0 =>
    (dlookup cs word).isSome ||
      (List.range' i0 (word.length + 1 - i0)).any (fun i =>
        match dlookup (containsTable word cs) (word.take i) with
        | some f => f i
        | none => false)

/-- Memo table for `containsT`: each child key paired with the child's
`_contains(word, ., child)` as a function of the start offset. -/
def containsTable (word : Str) : List (Str × Trie) → List (Str × (Nat → Bool))
  | [] => []
  | (k, t) :: rest => (k, containsT word t) :: containsTable word rest

end

/-- `WordTrie.__contains__` (src/vocab.py:152-153): `self._contains(word, 0, self._data)`. -/
def wordTrieContains (roots : List (Str × Trie)) (w : Str) : Bool :=
  containsT w (Trie.node roots) 0

mutual

/-- All strings reachable below a trie node: every key of the node and,
transitively, of its subtrees. -/
def trieKeys : Trie → List Str
  | Trie.node cs => keysBelow cs

/-- All keys occurring in a child dict, at any depth. -/
def keysBelow : List (Str × Trie) → List Str
  | [] => []
  | (k, t) :: rest => k :: (trieKeys t ++ keysBelow rest)

end

/-- Index of the last hit in a list of candidate indices: the final loop
iteration of `_search` whose `word[:i]` is a key of the current dict. -/
def lastHitL (hit : Nat → Bool) : List Nat → Option Nat
  | [] => none
  | i :: rest =>
    match lastHitL hit rest with
    | some j => some j
    | none => if hit i then some i else none

mutual

/-- The keys along the path `_search` descends: at each level the key hit
by the *last* matching loop index (later hits overwrite earlier ones), with
the deeper levels' keys listed first and the current level's key appended
last. -/
def descendPath (word : Str) (i0 : Nat) : Trie → List Str
  | Trie.node cs =>
    match lastHitL (fun i => (dlookup cs (word.take i)).isSome)
        (List.range' i0 (word.length + 1 - i0)) with
    | none => []
    | some i =>
      (match dlookup (descendTable word i0 cs) (word.take i) with
       | some ps => ps
       | none => []) ++ [word.take i]

/-- Memo table for `descendPath`. -/
def descendTable (word : Str) (i0 : Nat) : List (Str × Trie) → List (Str × List Str)
  | [] => []
  | (k, t) :: rest => (k, descendPath word i0 t) :: descendTable word i0 rest

end

/-- `strip_adjective(s)` (src/vocab.py:9-13): remove the first of the
endings `e, en, er, es, em` that `s` ends with, else return `s`. -/
def strip_adjective (s : Str) : Str :=
  match ["e".toList, "en".toList, "er".toList, "es".toList, "em".toList].find?
      (fun e => e.isSuffixOf s) with
  | some e => s.take (s.length - e.length)
  | none => s

/-- `Word.normalize` (src/vocab.py:51-75).  The effective trie is the call
argument if truthy, else the one stored on the Word; with neither, a
`ValueError` is raised (modelled as `Except.error ()`).  The
part-of-speech-keyed normalizer selection is a Python `for`-`else` whose
loop has no `break`, so the `else` branch always runs and replaces the
tag-selected list with all registered normalizers (`_NORMALIZERS.values()`,
i.e. `[strip_adjective]`); the first normalizer whose output is literally
among the searched prefixes wins, else the word is returned unchanged. -/
def wordNormalize (word : Str) (pos : List Str) (selfT argT : Option (List (Str × Trie))) : Except Unit Str :=
  let wt := match argT with
    | some t => some t
    | none => selfT
  match wt with
  | none => Except.error ()
  | some t =>
    let prefixes := (wordTrieSearch t word).1
    let tagSelected := pos.foldl
      (fun acc p => if p = "adjective".toList then acc ++ [strip_adjective] else acc)
      ([] : List (Str → Str))
    let normalizers := [strip_adjective]
    match normalizers.find? (fun f => prefixes.contains (f word)) with
    | some f => Except.ok (f word)
    | none => Except.ok word

/-! ## Basic dict lemmas -/

theorem dlookup_mem {α : Type} {l : List (Str × α)} {key : Str} {v : α}
    (h : dlookup l key = some v) : (key, v) ∈ l := by
  induction l with
  | nil => simp [dlookup] at h
  | cons kv rest ih =>
    obtain ⟨k, w⟩ := kv
    by_cases hk : key = k
    · subst hk
      simp [dlookup] at h
      subst h
      exact List.mem_cons_self _ _
    · simp [dlookup, hk] at h
      exact List.mem_cons_of_mem _ (ih h)

theorem mem_dinsert {α : Type} {l : List (Str × α)} {key : Str} {v : α} {kv : Str × α}
    (h : kv ∈ dinsert l key v) : kv = (key, v) ∨ kv ∈ l := by
  induction l with
  | nil => simpa [dinsert] using h
  | cons kw rest ih =>
    obtain ⟨k, w⟩ := kw
    by_cases hk : key = k
    · subst hk
      simp [dinsert] at h
      rcases h with h | h
      · exact Or.inl h
      · exact Or.inr (List.mem_cons_of_mem _ h)
    · simp only [dinsert, if_neg hk, List.mem_cons] at h
      rcases h with h | h
      · exact Or.inr (List.mem_cons.2 (Or.inl h))
      · rcases ih h with h' | h'
        · exact Or.inl h'
        · exact Or.inr (List.mem_cons_of_mem _ h')

theorem take_isPre (n : Nat) (l : Str) : l.take n <+: l :=
  List.take_prefix n l

theorem nil_isPre (l : Str) : ([] : Str) <+: l :=
  List.nil_prefix

/-! ## Memo tables compute the direct recursion -/

theorem searchTable_dlookup (word : Str) (i0 : Nat) (cs : List (Str × Trie)) (k : Str) :
    dlookup (searchTable word i0 cs) k =
      (dlookup cs k).map (fun t => (t, searchT word i0 t)) := by
  induction cs with
  | nil => rfl
  | cons kv rest ih =>
    obtain ⟨k', t⟩ := kv
    by_cases hk : k = k' <;> simp [searchTable, dlookup, hk, ih]

theorem containsTable_dlookup (word : Str) (cs : List (Str × Trie)) (k : Str) :
    dlookup (containsTable word cs) k = (dlookup cs k).map (fun t => containsT word t) := by
  induction cs with
  | nil => rfl
  | cons kv rest ih =>
    obtain ⟨k', t⟩ := kv
    by_cases hk : k = k' <;> simp [containsTable, dlookup, hk, ih]

theorem descendTable_dlookup (word : Str) (i0 : Nat) (cs : List (Str × Trie)) (k : Str) :
    dlookup (descendTable word i0 cs) k = (dlookup cs k).map (descendPath word i0) := by
  induction cs with
  | nil => rfl
  | cons kv rest ih =>
    obtain ⟨k', t⟩ := kv
    by_cases hk : k = k' <;> simp [descendTable, dlookup, hk, ih]

theorem anyExt {L : List Nat} {f g : Nat → Bool} (h : ∀ i ∈ L, f i = g i) :
    L.any f = L.any g := by
  induction L with
  | nil => rfl
  | cons i rest ih =>
    simp only [List.any_cons]
    rw [h i (List.mem_cons_self _ _), ih (fun j hj => h j (List.mem_cons_of_mem _ hj))]

/-- The body of `_search`'s loop, with the recursive call written directly
(src/vocab.py:96-111): on a hit, the recursion result replaces the
collected prefixes, the hit key is appended unless it equals the whole
word, and the subtree/end-offset pair is taken from the recursion when it
descended, else set to the hit child and the current index. -/
def searchStep (word : Str) (i0 : Nat) (cs : List (Str × Trie))
    (st : List Str × Option Trie × Nat) (i : Nat) : List Str × Option Trie × Nat :=
  match dlookup cs (word.take i) with
  | none => st
  | some child =>
    let r := searchT word i0 child
    let ps := if word.take i = word then r.1 else r.1 ++ [word.take i]
    match r.2.1 with
    | some s => (ps, some s, r.2.2)
    | none => (ps, some child, i)

theorem searchT_node (word : Str) (i0 : Nat) (cs : List (Str × Trie)) :
    searchT word i0 (Trie.node cs) =
      (let fin := (List.range' i0 (word.length + 1 - i0)).foldl (searchStep word i0 cs)
        ([], none, i0)
       if fin.2.2 < word.length then (fin.1, none, fin.2.2) else fin) := by
  show (let fin := (List.range' i0 (word.length + 1 - i0)).foldl _ ([], none, i0)
        if fin.2.2 < word.length then (fin.1, none, fin.2.2) else fin) = _
  have hfold : ∀ st : List Str × Option Trie × Nat,
      (List.range' i0 (word.length + 1 - i0)).foldl
        (fun st i =>
          match dlookup (searchTable word i0 cs) (word.take i) with
          | none => st
          | some (child, r) =>
            let ps := if word.take i = word then r.1 else r.1 ++ [word.take i]
            match r.2.1 with
            | some s => (ps, some s, r.2.2)
            | none => (ps, some child, i)) st =
      (List.range' i0 (word.length + 1 - i0)).foldl (searchStep word i0 cs) st := by
    intro st
    apply List.foldl_ext
    intro a i _
    rw [searchTable_dlookup]
    cases h : dlookup cs (word.take i) <;> simp [searchStep, h]
  simp only [hfold]

theorem containsT_node (word : Str) (i0 : Nat) (cs : List (Str × Trie)) :
    containsT word (Trie.node cs) i0 =
      ((dlookup cs word).isSome ||
        (List.range' i0 (word.length + 1 - i0)).any (fun i =>
          match dlookup cs (word.take i) with
          | some child => containsT word child i
          | none => false)) := by
  show ((dlookup cs word).isSome || _) = _
  congr 1
  apply anyExt
  intro i _
  rw [containsTable_dlookup]
  cases h : dlookup cs (word.take i) <;> simp

theorem descendPath_node (word : Str) (i0 : Nat) (cs : List (Str × Trie)) :
    descendPath word i0 (Trie.node cs) =
      (match lastHitL (fun i => (dlookup cs (word.take i)).isSome)
          (List.range' i0 (word.length + 1 - i0)) with
       | none => []
       | some i =>
         (match dlookup cs (word.take i) with
          | some c => descendPath word i0 c
          | none => []) ++ [word.take i]) := by
  show (match lastHitL _ _ with
        | none => []
        | some i => (match dlookup (descendTable word i0 cs) (word.take i) with
                     | some ps => ps
                     | none => []) ++ [word.take i]) = _
  have hme : ∀ i : Nat,
      (match dlookup (descendTable word i0 cs) (word.take i) with
       | some ps => ps
       | none => ([] : List Str)) =
      (match dlookup cs (word.take i) with
       | some c => descendPath word i0 c
       | none => []) := by
    intro i
    rw [descendTable_dlookup]
    cases dlookup cs (word.take i) <;> rfl
  cases lastHitL (fun i => (dlookup cs (word.take i)).isSome)
      (List.range' i0 (word.length + 1 - i0)) with
  | none => rfl
  | some i =>
    show (match dlookup (descendTable word i0 cs) (word.take i) with
          | some ps => ps
          | none => []) ++ [word.take i] =
        (match dlookup cs (word.take i) with
         | some c => descendPath word i0 c
         | none => []) ++ [word.take i]
    exact congrArg (· ++ [word.take i]) (hme i)

/-! ## The `_search` loop state is determined by the last hit -/

theorem lastHitL_spec {hit : Nat → Bool} {L : List Nat} {i : Nat}
    (h : lastHitL hit L = some i) : i ∈ L ∧ hit i = true := by
  induction L with
  | nil => simp [lastHitL] at h
  | cons j rest ih =>
    simp only [lastHitL] at h
    cases hr : lastHitL hit rest with
    | some k =>
      rw [hr] at h
      obtain rfl : k = i := by simpa using h
      obtain ⟨h1, h2⟩ := ih hr
      exact ⟨List.mem_cons_of_mem _ h1, h2⟩
    | none =>
      rw [hr] at h
      by_cases hj : hit j = true
      · rw [if_pos hj] at h
        obtain rfl : j = i := by simpa using h
        exact ⟨List.mem_cons_self _ _, hj⟩
      · rw [if_neg hj] at h
        simp at h

theorem searchStep_miss {word : Str} {i0 : Nat} {cs : List (Str × Trie)} {i : Nat}
    (h : dlookup cs (word.take i) = none) (st : List Str × Option Trie × Nat) :
    searchStep word i0 cs st i = st := by
  simp [searchStep, h]

theorem searchStep_hit_const {word : Str} {i0 : Nat} {cs : List (Str × Trie)} {i : Nat}
    (h : (dlookup cs (word.take i)).isSome = true) (st st' : List Str × Option Trie × Nat) :
    searchStep word i0 cs st i = searchStep word i0 cs st' i := by
  obtain ⟨c, hc⟩ := Option.isSome_iff_exists.1 h
  simp [searchStep, hc]

/-- `_search`'s fold over the index range: every hit overwrites the whole
state, so the final state is the step applied at the *last* hit index (or
the initial state when nothing hits). -/
theorem foldl_searchStep (word : Str) (i0 : Nat) (cs : List (Str × Trie)) :
    ∀ (L : List Nat) (st : List Str × Option Trie × Nat),
      L.foldl (searchStep word i0 cs) st =
        (match lastHitL (fun i => (dlookup cs (word.take i)).isSome) L with
         | none => st
         | some i => searchStep word i0 cs ([], none, i0) i) := by
  intro L
  induction L with
  | nil => intro st; rfl
  | cons j rest ih =>
    intro st
    rw [List.foldl_cons, ih]
    show _ = (match (match lastHitL _ rest with
                     | some k => some k
                     | none => if (dlookup cs (word.take j)).isSome then some j else none) with
              | none => st
              | some i => searchStep word i0 cs ([], none, i0) i)
    cases hr : lastHitL (fun i => (dlookup cs (word.take i)).isSome) rest with
    | some k => rfl
    | none =>
      by_cases hj : (dlookup cs (word.take j)).isSome = true
      · rw [if_pos hj]
        exact searchStep_hit_const hj st ([], none, i0)
      · rw [if_neg hj]
        exact searchStep_miss (Option.not_isSome_iff_eq_none.1 hj) st

/-- The prefix list returned by `_search` at a node, via the last hit. -/
theorem searchT_fst (word : Str) (i0 : Nat) (cs : List (Str × Trie)) :
    (searchT word i0 (Trie.node cs)).1 =
      (match lastHitL (fun i => (dlookup cs (word.take i)).isSome)
          (List.range' i0 (word.length + 1 - i0)) with
       | none => []
       | some i => (searchStep word i0 cs ([], none, i0) i).1) := by
  rw [searchT_node, foldl_searchStep]
  cases lastHitL (fun i => (dlookup cs (word.take i)).isSome)
      (List.range' i0 (word.length + 1 - i0)) with
  | none =>
    show (if (i0 : Nat) < word.length then (([] : List Str), (none : Option Trie), i0)
          else ([], none, i0)).1 = ([] : List Str)
    split <;> rfl
  | some i =>
    show (let fin := searchStep word i0 cs ([], none, i0) i
          if fin.2.2 < word.length then (fin.1, none, fin.2.2) else fin).1 =
        (searchStep word i0 cs ([], none, i0) i).1
    cases searchStep word i0 cs ([], none, i0) i with
    | mk ps rest =>
      show (if rest.2 < word.length then (ps, none, rest.2) else (ps, rest)).1 = ps
      split <;> rfl

/-! ## Size lemma for strong induction over the trie -/

theorem dlookup_sizeOf_lt {cs : List (Str × Trie)} {k : Str} {t : Trie}
    (h : dlookup cs k = some t) : sizeOf t < sizeOf (Trie.node cs) := by
  have h1 : (k, t) ∈ cs := dlookup_mem h
  have h2 : sizeOf (k, t) < sizeOf cs := List.sizeOf_lt_of_mem h1
  have h3 : sizeOf (Trie.node cs) = 1 + sizeOf cs := by simp
  have h4 : sizeOf (k, t) = 1 + sizeOf k + sizeOf t := by simp
  omega

/-! ## `_search` returns exactly the descended-path keys, minus the word -/

theorem searchT_fst_eq_aux (word : Str) (i0 : Nat) :
    ∀ (n : Nat) (t : Trie), sizeOf t ≤ n →
      (searchT word i0 t).1 =
        (descendPath word i0 t).filter (fun p => decide (p ≠ word)) := by
  intro n
  induction n with
  | zero =>
    intro t h
    obtain ⟨cs⟩ := t
    have h3 : sizeOf (Trie.node cs) = 1 + sizeOf cs := by simp
    omega
  | succ n ih =>
    intro t h
    obtain ⟨cs⟩ := t
    rw [searchT_fst, descendPath_node]
    cases hl : lastHitL (fun i => (dlookup cs (word.take i)).isSome)
        (List.range' i0 (word.length + 1 - i0)) with
    | none => rfl
    | some i =>
      have hhit : (dlookup cs (word.take i)).isSome = true := (lastHitL_spec hl).2
      obtain ⟨c, hc⟩ := Option.isSome_iff_exists.1 hhit
      have hsub : sizeOf c ≤ n := by
        have := dlookup_sizeOf_lt hc
        have h3 : sizeOf (Trie.node cs) = 1 + sizeOf cs := by simp
        omega
      have ihc := ih c hsub
      simp only [searchStep, hc]
      rw [List.filter_append]
      cases h2 : (searchT word i0 c).2.1 with
      | none =>
        by_cases hw : word.take i = word
        · simp [hw, ihc]
        · simp [hw, ihc]
      | some s =>
        by_cases hw : word.take i = word
        · simp [hw, ihc]
        · simp [hw, ihc]

/-- Every string on the descended path is an initial segment of the word. -/
theorem descendPath_take (word : Str) (i0 : Nat) :
    ∀ (n : Nat) (t : Trie), sizeOf t ≤ n →
      ∀ p ∈ descendPath word i0 t, ∃ i, p = word.take i := by
  intro n
  induction n with
  | zero =>
    intro t h
    obtain ⟨cs⟩ := t
    have h3 : sizeOf (Trie.node cs) = 1 + sizeOf cs := by simp
    omega
  | succ n ih =>
    intro t h p hp
    obtain ⟨cs⟩ := t
    rw [descendPath_node] at hp
    cases hl : lastHitL (fun i => (dlookup cs (word.take i)).isSome)
        (List.range' i0 (word.length + 1 - i0)) with
    | none => rw [hl] at hp; simp at hp
    | some i =>
      rw [hl] at hp
      rcases List.mem_append.1 hp with hp' | hp'
      · cases hc : dlookup cs (word.take i) with
        | none => rw [hc] at hp'; simp at hp'
        | some c =>
          rw [hc] at hp'
          have hsub : sizeOf c ≤ n := by
            have := dlookup_sizeOf_lt hc
            have h3 : sizeOf (Trie.node cs) = 1 + sizeOf cs := by simp
            omega
          exact ih c hsub p hp'
      · obtain rfl : p = word.take i := by simpa using hp'
        exact ⟨i, rfl⟩

/-- Every returned prefix is a strict literal prefix of the probe word. -/
theorem searchT_fst_mem {cs : List (Str × Trie)} {word : Str} {i0 : Nat} {p : Str}
    (hp : p ∈ (searchT word i0 (Trie.node cs)).1) : p <+: word ∧ p ≠ word := by
  rw [searchT_fst_eq_aux word i0 (sizeOf (Trie.node cs)) (Trie.node cs) (Nat.le_refl _)] at hp
  obtain ⟨hmem, hne⟩ := List.mem_filter.1 hp
  obtain ⟨i, rfl⟩ := descendPath_take word i0 (sizeOf (Trie.node cs)) (Trie.node cs)
    (Nat.le_refl _) _ hmem
  exact ⟨take_isPre _ _, of_decide_eq_true hne⟩

/-! ## Grouping lemmas -/

/-- Every key produced by the scan is the pending prefix or one of the
remaining input words (or was already present). -/
theorem scanGroups_keys :
    ∀ (ws : List Str) (pfx : Option Str) (cur : List Str) (gs : List (Str × List Str))
      (kv : Str × List Str), kv ∈ scanGroups ws pfx cur gs →
      kv ∈ gs ∨ (∃ p, pfx = some p ∧ kv.1 = p) ∨ kv.1 ∈ ws := by
  intro ws
  induction ws with
  | nil =>
    intro pfx cur gs kv h
    cases pfx with
    | none => exact Or.inl h
    | some p =>
      simp only [scanGroups] at h
      by_cases hp : p = []
      · rw [if_pos hp] at h
        exact Or.inl h
      · rw [if_neg hp] at h
        rcases mem_dinsert h with h' | h'
        · exact Or.inr (Or.inl ⟨p, rfl, by rw [h']⟩)
        · exact Or.inl h'
  | cons w ws ih =>
    intro pfx cur gs kv h
    cases pfx with
    | none =>
      simp only [scanGroups] at h
      rcases ih (some w) cur gs kv h with h' | ⟨p, hp, hk⟩ | h'
      · exact Or.inl h'
      · obtain rfl : w = p := Option.some.inj hp
        exact Or.inr (Or.inr (by rw [hk]; exact List.mem_cons_self _ _))
      · exact Or.inr (Or.inr (List.mem_cons_of_mem _ h'))
    | some p =>
      simp only [scanGroups] at h
      by_cases hw : isPrefixFn p w = true
      · rw [if_pos hw] at h
        rcases ih (some p) (cur ++ [w]) gs kv h with h' | ⟨q, hq, hk⟩ | h'
        · exact Or.inl h'
        · exact Or.inr (Or.inl ⟨q, hq, hk⟩)
        · exact Or.inr (Or.inr (List.mem_cons_of_mem _ h'))
      · rw [if_neg hw] at h
        rcases ih (some w) [] (dinsert gs p cur) kv h with h' | ⟨q, hq, hk⟩ | h'
        · rcases mem_dinsert h' with h'' | h''
          · exact Or.inr (Or.inl ⟨p, rfl, by rw [h'']⟩)
          · exact Or.inl h''
        · obtain rfl : w = q := Option.some.inj hq
          exact Or.inr (Or.inr (by rw [hk]; exact List.mem_cons_self _ _))
        · exact Or.inr (Or.inr (List.mem_cons_of_mem _ h'))

/-- Every member of every produced group starts with the group's key:
members are only ever appended after passing `is_prefix(prefix, word)`. -/
theorem scanGroups_values :
    ∀ (ws : List Str) (p : Str) (cur : List Str) (gs : List (Str × List Str)),
      (∀ w ∈ cur, p <+: w) →
      (∀ kv ∈ gs, ∀ w ∈ kv.2, kv.1 <+: w) →
      ∀ kv ∈ scanGroups ws (some p) cur gs, ∀ w ∈ kv.2, kv.1 <+: w := by
  intro ws
  induction ws with
  | nil =>
    intro p cur gs hcur hgs kv h
    simp only [scanGroups] at h
    by_cases hp : p = []
    · rw [if_pos hp] at h
      exact hgs kv h
    · rw [if_neg hp] at h
      rcases mem_dinsert h with h' | h'
      · subst h'
        exact hcur
      · exact hgs kv h'
  | cons w ws ih =>
    intro p cur gs hcur hgs kv h
    simp only [scanGroups] at h
    by_cases hw : isPrefixFn p w = true
    · rw [if_pos hw] at h
      refine ih p (cur ++ [w]) gs ?_ hgs kv h
      intro x hx
      rcases List.mem_append.1 hx with hx' | hx'
      · exact hcur x hx'
      · obtain rfl : x = w := by simpa using hx'
        exact List.isPrefixOf_iff_prefix.1 hw
    · rw [if_neg hw] at h
      refine ih w [] (dinsert gs p cur) (by intro x hx; simp at hx) ?_ kv h
      intro kv' hkv' x hx
      rcases mem_dinsert hkv' with h'' | h''
      · subst h''
        exact hcur x hx
      · exact hgs kv' h'' x hx

/-- A produced member list is strictly shorter than the scan's input: the
word that became the run's prefix is consumed without being a member. -/
theorem scanGroups_value_length :
    ∀ (ws : List Str) (p : Str) (cur : List Str) (gs : List (Str × List Str))
      (kv : Str × List Str), kv ∈ scanGroups ws (some p) cur gs →
      kv ∈ gs ∨ kv.2.length ≤ cur.length + ws.length := by
  intro ws
  induction ws with
  | nil =>
    intro p cur gs kv h
    simp only [scanGroups] at h
    by_cases hp : p = []
    · rw [if_pos hp] at h
      exact Or.inl h
    · rw [if_neg hp] at h
      rcases mem_dinsert h with h' | h'
      · refine Or.inr ?_
        rw [h']
        simp
      · exact Or.inl h'
  | cons w ws ih =>
    intro p cur gs kv h
    simp only [scanGroups] at h
    by_cases hw : isPrefixFn p w = true
    · rw [if_pos hw] at h
      rcases ih p (cur ++ [w]) gs kv h with h' | h'
      · exact Or.inl h'
      · refine Or.inr ?_
        have h1 : (cur ++ [w]).length = cur.length + 1 := by simp
        have h2 : (w :: ws).length = ws.length + 1 := rfl
        omega
    · rw [if_neg hw] at h
      rcases ih w [] (dinsert gs p cur) kv h with h' | h'
      · rcases mem_dinsert h' with h'' | h''
        · refine Or.inr ?_
          rw [h'']
          show cur.length ≤ cur.length + (w :: ws).length
          have h2 : (w :: ws).length = ws.length + 1 := rfl
          omega
        · exact Or.inl h''
      · refine Or.inr ?_
        have h1 : ([] : List Str).length = 0 := rfl
        have h2 : (w :: ws).length = ws.length + 1 := rfl
        omega

/-- Every key of the built grouping was one of the input words. -/
theorem prefixGroupsF_key_mem :
    ∀ (fuel : Nat) (ws : List Str) (kv : Str × Trie),
      kv ∈ prefixGroupsF fuel ws → kv.1 ∈ ws := by
  intro fuel ws kv h
  cases fuel with
  | zero =>
    simp only [prefixGroupsF] at h
    exact absurd h (List.not_mem_nil _)
  | succ fuel =>
    simp only [prefixGroupsF] at h
    obtain ⟨kv', hkv', heq⟩ := List.mem_map.1 h
    have hfst : kv.1 = kv'.1 := by
      cases hpg : prefixGroupsF fuel kv'.2 with
      | nil =>
        rw [hpg] at heq
        rw [← heq]
      | cons g gs' =>
        rw [hpg] at heq
        rw [← heq]
    rcases scanGroups_keys ws none [] [] kv' hkv' with h' | ⟨p, hp, -⟩ | h'
    · simp at h'
    · simp at hp
    · rw [hfst]
      exact h'

/-- Characterisation of the strings reachable below a child dict. -/
theorem keysBelow_mem {l : List (Str × Trie)} {s : Str} :
    s ∈ keysBelow l ↔ ∃ kv, kv ∈ l ∧ (s = kv.1 ∨ s ∈ trieKeys kv.2) := by
  induction l with
  | nil =>
    simp only [keysBelow]
    constructor
    · intro h
      exact absurd h (List.not_mem_nil _)
    · rintro ⟨kv, hkv, -⟩
      exact absurd hkv (List.not_mem_nil _)
  | cons kv rest ih =>
    obtain ⟨k, t⟩ := kv
    simp only [keysBelow, List.mem_cons, List.mem_append, ih]
    constructor
    · rintro (rfl | hs | ⟨kv', hkv', h'⟩)
      · exact ⟨(s, t), Or.inl rfl, Or.inl rfl⟩
      · exact ⟨(k, t), Or.inl rfl, Or.inr hs⟩
      · exact ⟨kv', Or.inr hkv', h'⟩
    · rintro ⟨kv', (rfl | hkv'), h'⟩
      · rcases h' with h' | h'
        · exact Or.inl h'
        · exact Or.inr (Or.inl h')
      · exact Or.inr (Or.inr ⟨kv', hkv', h'⟩)

/-- Elements of the leaf-map fold `{word: {} for word in ws}`. -/
theorem mem_foldl_dinsert {α : Type} (x : α) :
    ∀ (ws : List Str) (d0 : List (Str × α)) (kv : Str × α),
      kv ∈ ws.foldl (fun d w => dinsert d w x) d0 →
      kv ∈ d0 ∨ (kv.2 = x ∧ kv.1 ∈ ws) := by
  intro ws
  induction ws with
  | nil =>
    intro d0 kv h
    exact Or.inl h
  | cons w ws ih =>
    intro d0 kv h
    rcases ih (dinsert d0 w x) kv h with h' | ⟨h1, h2⟩
    · rcases mem_dinsert h' with h'' | h''
      · refine Or.inr ⟨by rw [h''], ?_⟩
        rw [h'']
        exact List.mem_cons_self _ _
      · exact Or.inl h''
    · exact Or.inr ⟨h1, List.mem_cons_of_mem _ h2⟩

/-- The grouping invariant: every string reachable below a produced group
key literally starts with that key. -/
theorem prefixGroupsF_invariant :
    ∀ (fuel : Nat) (words : List Str) (kv : Str × Trie),
      kv ∈ prefixGroupsF fuel words → ∀ s ∈ trieKeys kv.2, kv.1 <+: s := by
  intro fuel
  induction fuel with
  | zero =>
    intro words kv h
    simp only [prefixGroupsF] at h
    exact absurd h (List.not_mem_nil _)
  | succ fuel ih =>
    intro words kv h s hs
    simp only [prefixGroupsF] at h
    obtain ⟨kv', hkv', heq⟩ := List.mem_map.1 h
    have hval : ∀ w ∈ kv'.2, kv'.1 <+: w := by
      cases words with
      | nil => simp [scanGroups] at hkv'
      | cons w ws =>
        have hkv'' : kv' ∈ scanGroups ws (some w) [] [] := by
          simpa only [scanGroups] using hkv'
        exact scanGroups_values ws w [] [] (by intro x hx; simp at hx)
          (by intro kv0 h0; simp at h0) kv' hkv''
    have hfst : kv.1 = kv'.1 := by
      cases hpg : prefixGroupsF fuel kv'.2 with
      | nil => rw [hpg] at heq; rw [← heq]
      | cons g gs' => rw [hpg] at heq; rw [← heq]
    rw [hfst]
    cases hpg : prefixGroupsF fuel kv'.2 with
    | nil =>
      rw [hpg] at heq
      have hsnd : kv.2 = Trie.node (kv'.2.foldl (fun d w => dinsert d w (Trie.node [])) []) := by
        rw [← heq]
      rw [hsnd] at hs
      obtain ⟨kv0, hkv0, h0⟩ := keysBelow_mem.1 hs
      rcases mem_foldl_dinsert _ kv'.2 [] kv0 hkv0 with h1 | ⟨h1, h2⟩
      · simp at h1
      · rcases h0 with h0 | h0
        · rw [h0]
          exact hval kv0.1 h2
        · rw [h1] at h0
          simp [trieKeys, keysBelow] at h0
    | cons g gs' =>
      rw [hpg] at heq
      have hsnd : kv.2 = Trie.node (g :: gs') := by rw [← heq]
      rw [hsnd] at hs
      have hs' : s ∈ keysBelow (prefixGroupsF fuel kv'.2) := by rw [hpg]; exact hs
      obtain ⟨kv0, hkv0, h0⟩ := keysBelow_mem.1 hs'
      have hk0 : kv0.1 ∈ kv'.2 := prefixGroupsF_key_mem fuel kv'.2 kv0 hkv0
      rcases h0 with h0 | h0
      · rw [h0]
        exact hval kv0.1 hk0
      · exact (hval kv0.1 hk0).trans (ih kv'.2 kv0 hkv0 s h0)

/-- The depth bound of `prefixGroupsF` is irrelevant as soon as it reaches
the input length: the member lists recursed on are strictly shorter than
the input, so `wordTrieData`'s bound is never exhausted and the embedding
computes exactly `WordTrie._prefix_groups`. -/
theorem prefixGroupsF_congr :
    ∀ (f1 : Nat) (words : List Str) (f2 : Nat),
      words.length ≤ f1 → words.length ≤ f2 →
      prefixGroupsF f1 words = prefixGroupsF f2 words := by
  intro f1
  induction f1 with
  | zero =>
    intro words f2 h1 h2
    have hw : words = [] := List.length_eq_zero.1 (Nat.le_zero.1 h1)
    subst hw
    cases f2 with
    | zero => rfl
    | succ f2 => rfl
  | succ f1 ih =>
    intro words f2 h1 h2
    cases f2 with
    | zero =>
      have hw : words = [] := List.length_eq_zero.1 (Nat.le_zero.1 h2)
      subst hw
      rfl
    | succ f2 =>
      simp only [prefixGroupsF]
      apply List.map_congr_left
      intro kv hkv
      have hlen : kv.2.length + 1 ≤ words.length := by
        cases words with
        | nil => simp [scanGroups] at hkv
        | cons w ws =>
          have hkv' : kv ∈ scanGroups ws (some w) [] [] := by
            simpa only [scanGroups] using hkv
          rcases scanGroups_value_length ws w [] [] kv hkv' with h' | h'
          · exact absurd h' (List.not_mem_nil _)
          · have h0 : ([] : List Str).length = 0 := rfl
            have h3 : (w :: ws).length = ws.length + 1 := rfl
            omega
      rw [ih kv.2 f2 (by omega) (by omega)]

/-! ## Degenerate runs: empty-string prefix and empty trie -/

/-- Once the pending prefix is the empty string, every later word extends
it, so nothing is ever flushed and the final truthiness check drops the
run entirely. -/
theorem scanGroups_empty_pfx :
    ∀ (ws cur : List Str) (gs : List (Str × List Str)),
      scanGroups ws (some []) cur gs = gs := by
  intro ws
  induction ws with
  | nil => intro cur gs; simp [scanGroups]
  | cons w ws ih =>
    intro cur gs
    have hp : isPrefixFn [] w = true := List.isPrefixOf_iff_prefix.2 (nil_isPre w)
    simp only [scanGroups, if_pos hp]
    exact ih (cur ++ [w]) gs

theorem lastHitL_false :
    ∀ (L : List Nat) (hit : Nat → Bool), (∀ i, hit i = false) → lastHitL hit L = none := by
  intro L hit hf
  induction L with
  | nil => rfl
  | cons i rest ih =>
    simp only [lastHitL, ih, hf i]
    rfl

theorem containsT_nil (w : Str) (i0 : Nat) : containsT w (Trie.node []) i0 = false := by
  rw [containsT_node]
  simp [dlookup]

theorem searchT_nil (w : Str) (i0 : Nat) : searchT w i0 (Trie.node []) = ([], none, i0) := by
  rw [searchT_node, foldl_searchStep]
  rw [lastHitL_false _ _ (fun i => by simp [dlookup])]
  show (if (i0 : Nat) < w.length then (([] : List Str), (none : Option Trie), i0)
        else ([], none, i0)) = ([], none, i0)
  split <;> rfl

/-! ## Reachability: a word sitting on a key path of the trie -/

/-- `Reach w i0 cs` says `w` is reachable in the dict `cs` the way
`_contains` walks: either `w` is a direct key, or some `w[:i]` with
`i0 <= i <= len w` is a key whose child reaches `w` from offset `i`.
This formalises "inserted verbatim as a (leaf-)path of the trie". -/
inductive Reach (w : Str) : Nat → List (Str × Trie) → Prop where
  | here (i0 : Nat) (cs : List (Str × Trie)) (h : (dlookup cs w).isSome = true) :
      Reach w i0 cs
  | step (i0 i : Nat) (cs cs' : List (Str × Trie))
      (h0 : i0 ≤ i) (h1 : i ≤ w.length)
      (h2 : dlookup cs (w.take i) = some (Trie.node cs'))
      (h3 : Reach w i cs') : Reach w i0 cs

/-- `_contains` answers true on every reachable word. -/
theorem reach_contains {w : Str} {i0 : Nat} {cs : List (Str × Trie)}
    (h : Reach w i0 cs) : containsT w (Trie.node cs) i0 = true := by
  induction h with
  | here i0 cs h =>
    rw [containsT_node]
    simp [h]
  | step i0 i cs cs' h0 h1 h2 h3 ih =>
    rw [containsT_node]
    have hmem : i ∈ List.range' i0 (w.length + 1 - i0) := by
      rw [List.mem_range'_1]
      omega
    have hval : (match dlookup cs (w.take i) with
                 | some child => containsT w child i
                 | none => false) = true := by
      rw [h2]
      exact ih
    rw [Bool.or_eq_true]
    exact Or.inr (List.any_eq_true.2 ⟨i, hmem, hval⟩)

/-- The worked scenario's input: `["be", "bekommen", "bekommst", "besuchen", "gut"]`. -/
def demoWords : List Str :=
  ["be".toList, "bekommen".toList, "bekommst".toList, "besuchen".toList, "gut".toList]

example : wordTrieData demoWords =
    [("be".toList, Trie.node
        [("bekommen".toList, Trie.node []), ("bekommst".toList, Trie.node []),
         ("besuchen".toList, Trie.node [])]),
     ("gut".toList, Trie.node [])] := rfl

example : wordTrieSearch (wordTrieData demoWords) "bekommen".toList =
    (["be".toList], some (Trie.node [])) := rfl

example : wordTrieSearch (wordTrieData demoWords) "gutes".toList =
    (["gut".toList], none) := rfl

example : (wordTrieSearch (wordTrieData demoWords) "bekommens".toList).1 =
    ["bekommen".toList, "be".toList] := by decide

example : wordTrieContains (wordTrieData demoWords) "bekommen".toList = true := rfl
example : wordTrieContains (wordTrieData demoWords) "be".toList = true := rfl
example : wordTrieContains (wordTrieData demoWords) "gutes".toList = false := rfl
example : wordTrieData (([] : Str) :: demoWords) = [] := rfl
example : strip_adjective "gute".toList = "gut".toList := rfl
example : wordNormalize "gute".toList ["adjective".toList] none (some (wordTrieData demoWords)) =
    Except.ok "gut".toList := rfl
example : wordNormalize "gute".toList [] none none = Except.error () := rfl
example : descendPath "bekommens".toList 0 (Trie.node (wordTrieData demoWords)) =
    ["bekommen".toList, "be".toList] := rfl
example : trieKeys (Trie.node (wordTrieData demoWords)) =
    ["be".toList, "bekommen".toList, "bekommst".toList, "besuchen".toList, "gut".toList] := rfl

/-! ## Unfolding lemmas for `Word.normalize` -/

theorem wordNormalize_arg (word : Str) (pos : List Str)
    (selfT : Option (List (Str × Trie))) (t : List (Str × Trie)) :
    wordNormalize word pos selfT (some t) =
      (match [strip_adjective].find?
          (fun f => ((wordTrieSearch t word).1).contains (f word)) with
       | some f => Except.ok (f word)
       | none => Except.ok word) := rfl

theorem wordNormalize_self (word : Str) (pos : List Str) (t : List (Str × Trie)) :
    wordNormalize word pos (some t) none =
      (match [strip_adjective].find?
          (fun f => ((wordTrieSearch t word).1).contains (f word)) with
       | some f => Except.ok (f word)
       | none => Except.ok word) := rfl

theorem wordNormalize_none (word : Str) (pos : List Str) :
    wordNormalize word pos none none = Except.error () := rfl

/-! ## Claim theorems -/

/-- C1 (counterexample): on the trie built from the worked scenario's
words, `search("bekommens")` returns the prefixes `["bekommen", "be"]`,
i.e. the deeper/longer prefix comes *first* — the list is not in
outside-in order with longer prefixes appended after shorter ones. -/
theorem search_outside_in_false :
    (wordTrieSearch (wordTrieData demoWords) "bekommens".toList).1 =
      ["bekommen".toList, "be".toList] ∧
    ¬ List.Pairwise (fun a b : Str => a.length ≤ b.length)
        (wordTrieSearch (wordTrieData demoWords) "bekommens".toList).1 := by
  constructor
  · rfl
  · decide

/-- C1 (amended): for every trie and probe word, `search(w)` returns
exactly the node keys along the descended path (at each level, the key of
the last matching scan index), excluding `w` itself, listed inside-out:
the deeper recursive call's prefixes come first and the current level's
(shorter) prefix is appended after them; every returned prefix is a
strict literal prefix of `w`. -/
theorem search_path_order (cs : List (Str × Trie)) (word : Str) :
    (searchT word 0 (Trie.node cs)).1 =
      (descendPath word 0 (Trie.node cs)).filter (fun p => decide (p ≠ word)) ∧
    ∀ p ∈ (searchT word 0 (Trie.node cs)).1, p <+: word ∧ p ≠ word := by
  constructor
  · exact searchT_fst_eq_aux word 0 (sizeOf (Trie.node cs)) (Trie.node cs) (Nat.le_refl _)
  · intro p hp
    exact searchT_fst_mem hp

/-- Witness for `search_path_order` at the scenario trie and the probe
word "bekommens": "be" is among the returned prefixes, hence a strict
literal prefix of the probe. -/
theorem search_path_order_witness :
    ("be".toList <+: "bekommens".toList) ∧ "be".toList ≠ "bekommens".toList :=
  (search_path_order (wordTrieData demoWords) "bekommens".toList).2 "be".toList (by decide)

/-- C2: building the trie from `["be", "bekommen", "bekommst", "besuchen",
"gut"]` groups the three "be"-words under "be" and keeps "gut" as an
ungrouped singleton key, and `search("bekommen")` returns the prefix list
`["be"]` (excluding "bekommen" itself) with a non-None subtree. -/
theorem scenario_build_and_search :
    wordTrieData demoWords =
      [("be".toList, Trie.node
          [("bekommen".toList, Trie.node []), ("bekommst".toList, Trie.node []),
           ("besuchen".toList, Trie.node [])]),
       ("gut".toList, Trie.node [])] ∧
    wordTrieSearch (wordTrieData demoWords) "bekommen".toList =
      (["be".toList], some (Trie.node [])) :=
  ⟨rfl, rfl⟩

/-- C3 (counterexample): on the scenario trie, `search("gutes")` does not
return `([], None)` — its prefix list is `["gut"]`, not `[]`. -/
theorem search_gutes_nonempty :
    wordTrieSearch (wordTrieData demoWords) "gutes".toList ≠ ([], none) := by
  intro h
  have h1 : (wordTrieSearch (wordTrieData demoWords) "gutes".toList).1 = ["gut".toList] := rfl
  rw [h] at h1
  exact absurd h1 (by decide)

/-- C3 (amended): on the scenario trie, `search("gutes")` returns
`(["gut"], None)`: no subtree since "gutes" is not fully consumable, but
the prefix list holds the node key "gut", a literal prefix of "gutes". -/
theorem search_gutes_result :
    wordTrieSearch (wordTrieData demoWords) "gutes".toList = (["gut".toList], none) := rfl

/-- C4: for every input word sequence, every `(prefix, group)` pair of the
built grouping satisfies the invariant that every string reachable below
the prefix — every key and, transitively, every member of nested
sub-groups — literally starts with the prefix. -/
theorem grouping_invariant (words : List Str) (k : Str) (t : Trie)
    (h : (k, t) ∈ wordTrieData words) : ∀ s ∈ trieKeys t, k <+: s :=
  prefixGroupsF_invariant words.length words (k, t) h

/-- Witness for `grouping_invariant` on the scenario: the group under
"be" contains "bekommen", which starts with "be". -/
theorem grouping_invariant_witness : "be".toList <+: "bekommen".toList :=
  grouping_invariant demoWords "be".toList
    (Trie.node [("bekommen".toList, Trie.node []), ("bekommst".toList, Trie.node []),
      ("besuchen".toList, Trie.node [])])
    (List.mem_cons_self _ _) "bekommen".toList (by decide)

/-- C5: every input word that sits verbatim on a key path of the built
trie (formalised by `Reach`) is accepted by the membership test. -/
theorem contains_leaf_path (words : List Str) (w : Str)
    (hw : w ∈ words) (h : Reach w 0 (wordTrieData words)) :
    wordTrieContains (wordTrieData words) w = true :=
  reach_contains h

/-- Witness for `contains_leaf_path`: "bekommen" lies on the path
root → "be" → "bekommen" of the scenario trie and is contained. -/
theorem contains_leaf_path_witness :
    wordTrieContains (wordTrieData demoWords) "bekommen".toList = true :=
  contains_leaf_path demoWords "bekommen".toList (by decide)
    (Reach.step 0 2 _
      [("bekommen".toList, Trie.node []), ("bekommst".toList, Trie.node []),
       ("besuchen".toList, Trie.node [])]
      (by decide) (by decide) rfl
      (Reach.here 2 _ (by decide)))

/-- C6: for every trie and word, the prefix list of `search(w)` never
contains `w` itself; all returned prefixes are strictly shorter literal
prefixes of `w`. -/
theorem search_excludes_word (cs : List (Str × Trie)) (w : Str) :
    w ∉ (wordTrieSearch cs w).1 ∧
    ∀ p ∈ (wordTrieSearch cs w).1, p.length < w.length ∧ p <+: w := by
  have hmem : ∀ p ∈ (searchT w 0 (Trie.node cs)).1, p <+: w ∧ p ≠ w :=
    fun p hp => searchT_fst_mem hp
  constructor
  · intro hw
    exact absurd rfl (hmem w hw).2
  · intro p hp
    obtain ⟨hpre, hne⟩ := hmem p hp
    refine ⟨?_, hpre⟩
    rcases Nat.lt_or_ge p.length w.length with h | h
    · exact h
    · have hle := hpre.length_le
      have heq : p.length = w.length := Nat.le_antisymm hle h
      exact absurd (hpre.eq_of_length heq) hne

/-- Witness for `search_excludes_word`: "bekommen" is itself a node key of
the scenario trie yet absent from its own search prefixes, while the
returned "be" is strictly shorter. -/
theorem search_excludes_word_witness :
    "bekommen".toList ∉ (wordTrieSearch (wordTrieData demoWords) "bekommen".toList).1 ∧
    ("be".toList.length < "bekommen".toList.length ∧ "be".toList <+: "bekommen".toList) :=
  ⟨(search_excludes_word (wordTrieData demoWords) "bekommen".toList).1,
   (search_excludes_word (wordTrieData demoWords) "bekommen".toList).2 "be".toList (by decide)⟩

/-- C7 (counterexample): the single-element input `["gut"]` yields the
non-empty grouping `{"gut": {}}` — the first element does become a group
key (via the final flush) even with no subsequent word. -/
theorem singleton_grouping_key :
    wordTrieData ["gut".toList] ≠ [] ∧
    dlookup (wordTrieData ["gut".toList]) "gut".toList = some (Trie.node []) := by
  constructor
  · intro h
    have h1 : (wordTrieData ["gut".toList]).length = 1 := rfl
    rw [h] at h1
    exact absurd h1 (by decide)
  · rfl

/-- C7 (amended): empty input yields an empty grouping, and a singleton
input `[w]` yields `{w: {}}` for non-empty `w` (the lone element becomes a
key with no members via the final flush; `[""]` yields the empty grouping
because the empty-string key is dropped by the truthiness check). -/
theorem singleton_grouping :
    wordTrieData [] = [] ∧
    ∀ w : Str, wordTrieData [w] = if w = [] then [] else [(w, Trie.node [])] := by
  constructor
  · rfl
  · intro w
    by_cases hw : w = []
    · rw [if_pos hw, hw]
      rfl
    · rw [if_neg hw]
      show prefixGroupsF 1 [w] = [(w, Trie.node [])]
      simp only [prefixGroupsF, scanGroups, if_neg hw]
      rfl

/-- C8: `normalize` errors exactly when no trie is available (neither the
call argument nor the one stored at construction); with a trie available
it never errors, and when the normalization candidate is not literally
among the searched prefixes it returns the original word unchanged. -/
theorem normalize_error_iff (word : Str) (pos : List Str)
    (selfT argT : Option (List (Str × Trie))) :
    (wordNormalize word pos selfT argT = Except.error () ↔ (argT = none ∧ selfT = none)) ∧
    (∀ t, (argT = some t ∨ (argT = none ∧ selfT = some t)) →
      strip_adjective word ∉ (wordTrieSearch t word).1 →
      wordNormalize word pos selfT argT = Except.ok word) := by
  constructor
  · constructor
    · intro h
      cases argT with
      | some t =>
        rw [wordNormalize_arg] at h
        cases hf : [strip_adjective].find?
            (fun f => ((wordTrieSearch t word).1).contains (f word)) with
        | some f => rw [hf] at h; exact Except.noConfusion h
        | none => rw [hf] at h; exact Except.noConfusion h
      | none =>
        cases selfT with
        | some t =>
          rw [wordNormalize_self] at h
          cases hf : [strip_adjective].find?
              (fun f => ((wordTrieSearch t word).1).contains (f word)) with
          | some f => rw [hf] at h; exact Except.noConfusion h
          | none => rw [hf] at h; exact Except.noConfusion h
        | none => exact ⟨rfl, rfl⟩
    · rintro ⟨rfl, rfl⟩
      exact wordNormalize_none word pos
  · intro t ht hstrip
    have hc : ((wordTrieSearch t word).1).contains (strip_adjective word) = false := by
      rw [← Bool.not_eq_true]
      intro hc'
      exact hstrip (List.elem_iff.1 hc')
    have hfind : [strip_adjective].find?
        (fun f => ((wordTrieSearch t word).1).contains (f word)) = none := by
      rw [List.find?]
      rw [hc]
      rfl
    rcases ht with rfl | ⟨rfl, rfl⟩
    · rw [wordNormalize_arg, hfind]
    · rw [wordNormalize_self, hfind]

/-- Witness for `normalize_error_iff`: with the scenario trie supplied as
the call argument and a word whose stripped form is not a known prefix,
`normalize` returns the word unchanged (and does not error). -/
theorem normalize_error_iff_witness :
    wordNormalize "xyz".toList [] none (some (wordTrieData demoWords)) =
      Except.ok "xyz".toList :=
  (normalize_error_iff "xyz".toList [] none (some (wordTrieData demoWords))).2
    (wordTrieData demoWords) (Or.inl rfl) (by decide)

/-- C9: when the first input word is the empty string, it becomes the
pending prefix, swallows every later word as a member, and the final
`if prefix:` truthiness check drops the whole accumulated group — the
trie is empty, membership is always false and search always returns
`([], None)`, even for the other words of the sequence. -/
theorem empty_first_word_trie (rest : List Str) (w : Str) :
    wordTrieData (([] : Str) :: rest) = [] ∧
    wordTrieContains (wordTrieData (([] : Str) :: rest)) w = false ∧
    wordTrieSearch (wordTrieData (([] : Str) :: rest)) w = ([], none) := by
  have hdata : wordTrieData (([] : Str) :: rest) = [] := by
    show prefixGroupsF (rest.length + 1) (([] : Str) :: rest) = []
    simp only [prefixGroupsF, scanGroups, scanGroups_empty_pfx, List.map_nil]
  refine ⟨hdata, ?_, ?_⟩
  · rw [hdata]
    exact containsT_nil w 0
  · rw [hdata]
    show (let r := searchT w 0 (Trie.node []); (r.1, r.2.1)) = ([], none)
    rw [searchT_nil]

/-- C10: the result of `normalize` does not depend on the word's
part-of-speech tags: the normalizer-selection loop has no `break`, so its
`for`-`else` clause always replaces the tag-selected normalizers with the
full registered set. -/
theorem normalize_pos_independent (word : Str) (pos1 pos2 : List Str)
    (selfT argT : Option (List (Str × Trie))) :
    wordNormalize word pos1 selfT argT = wordNormalize word pos2 selfT argT := rfl
